import Mathlib

/-!
Shallow embedding of the GFXReconstruct capture core, the `TraceManager` of
src/framework/encode/trace_manager.cpp, together with proofs of the
specification's claims about it: packet framing and the block size field,
the compression benefit rule, the trim-range capture-mode state machine,
mapped-memory tracking, and thread-id assignment.

Machine integers are modelled as `Nat`.  The 64-bit `VkDeviceSize` sentinel
`VK_WHOLE_SIZE` is kept as the explicit constant `2 ^ 64 - 1`.  Counters
that the source stores in fixed-width unsigned integers (`current_frame_`,
trim totals, `thread_count_`) are modelled as unbounded naturals; on every
input admitted by the claims the source values stay strictly below the
wrap-around point, so no `% 2 ^ w` reduction is observable (legality of
trim ranges, defined below, includes the 32-bit representability bound).
-/

/-- Little-endian encoding of a natural number into `w` bytes (each byte a
`Nat` below 256): the wire format of the capture file is little-endian
throughout. -/
def encodeLE : Nat → Nat → List Nat
  | 0, _ => []
  | w + 1, n => n % 256 :: encodeLE w (n / 256)

/-- A `u32` field on the wire. -/
def encodeU32 (n : Nat) : List Nat := encodeLE 4 n

/-- A `u64` field on the wire. -/
def encodeU64 (n : Nat) : List Nat := encodeLE 8 n

theorem encodeLE_length (w n : Nat) : (encodeLE w n).length = w := by
  induction w generalizing n with
  | zero => rfl
  | succ w ih => simp [encodeLE, ih]

/-- Block type codes.  Modelled from the spec: the numeric values of
`format::BlockType` live in a header that is not among the sources, so
distinct codes are chosen here; every claim depends only on which variant
is emitted, never on the codes themselves. -/
def kFunctionCallBlock : Nat := 1

def kCompressedFunctionCallBlock : Nat := 2

def kMetaDataBlock : Nat := 3

def kCompressedMetaDataBlock : Nat := 4

/-- Meta-data type code for `FillMemoryCommand` (same remark as for the
block type codes). -/
def kFillMemoryCommand : Nat := 2

/-- A framed packet as assembled by the write path: the three block shapes
the claims are about.  The first `Nat` of each variant after the optional
block type is the `block_header.size` field the source computes. -/
inductive Packet where
  | funcCall (size apiCallId threadId : Nat) (payload : List Nat)
  | compFuncCall (size apiCallId threadId uncompressedSize : Nat) (payload : List Nat)
  | fillMemory (blockType size threadId memoryId memoryOffset memorySize : Nat) (payload : List Nat)
deriving DecidableEq

/-- The stored `block_header.size` field of a packet. -/
def blockSizeField : Packet → Nat
  | .funcCall s _ _ _ => s
  | .compFuncCall s _ _ _ _ => s
  | .fillMemory _ s _ _ _ _ _ => s

/-- Wire serialization of everything that follows the 12-byte block header
`{type: u32, size: u64}`, per the file-format section of the spec
(`format.h` itself is not among the sources): function-call body
`{api_call_id: u32, thread_id: u64, payload}`, compressed function-call
body additionally carries `uncompressed_size: u64`, fill-memory metadata
body `{meta_data_type: u32, thread_id: u64, memory_id: u64,
memory_offset: u64, memory_size: u64, payload}`. -/
def serializeAfterBlockHeader : Packet → List Nat
  | .funcCall _ api tid payload => encodeU32 api ++ encodeU64 tid ++ payload
  | .compFuncCall _ api tid usize payload =>
      encodeU32 api ++ encodeU64 tid ++ encodeU64 usize ++ payload
  | .fillMemory _ _ tid mid moff msize payload =>
      encodeU32 kFillMemoryCommand ++ encodeU64 tid ++ encodeU64 mid ++
        encodeU64 moff ++ encodeU64 msize ++ payload

/-- `TraceManager::EndApiCallTrace` (trace_manager.cpp:271-357), write path
only, returning the packet written under the file mutex (or `none` when the
`Write` bit of the capture mode is off).  A compressor is a function from
the parameter bytes to the compressed bytes; the source's
`Compress(uncompressed_size, data, &buffer)` returns the compressed length
`C` and fills the thread's scratch buffer, modelled as the length and
content of `comp params`.  The block size sums mirror the source's
`sizeof` sums (`api_call_id` is 4 bytes, `thread_id` and
`uncompressed_size` are 8 bytes). -/
def EndApiCallTrace (writeOn : Bool) (compressor : Option (List Nat → List Nat))
    (apiCallId threadId : Nat) (params : List Nat) : Option Packet :=
  if writeOn then
    match compressor with
    | some comp =>
      let cbytes := comp params
      if 0 < cbytes.length ∧ cbytes.length < params.length then
        some (.compFuncCall (4 + 8 + 8 + cbytes.length) apiCallId threadId params.length cbytes)
      else
        some (.funcCall (4 + 8 + params.length) apiCallId threadId params)
    | none => some (.funcCall (4 + 8 + params.length) apiCallId threadId params)
  else none

/-- `TraceManager::WriteFillMemoryCmd` (trace_manager.cpp:559-614),
returning the packet written (or `none` when `Write` is off).  The host
memory the source reads through `data + offset` is modelled as a total
byte function `mem`; the source reads exactly `size` bytes starting at
`offset`.  Compression follows the same strict-less-than rule as the call
path, and, when taken, only flips the block type from `kMetaDataBlock` to
`kCompressedMetaDataBlock`.  The block size sum mirrors the source's
`sizeof` sum over `meta_data_type, thread_id, memory_id, memory_offset,
memory_size` plus the written payload length. -/
def WriteFillMemoryCmd (writeOn : Bool) (compressor : Option (List Nat → List Nat))
    (threadId memoryId offset size : Nat) (mem : Nat → Nat) : Option Packet :=
  if writeOn then
    let writeBytes := (List.range size).map (fun i => mem (offset + i))
    match compressor with
    | some comp =>
      let cbytes := comp writeBytes
      if 0 < cbytes.length ∧ cbytes.length < size then
        some (.fillMemory kCompressedMetaDataBlock (4 + 8 + 8 + 8 + 8 + cbytes.length)
          threadId memoryId offset size cbytes)
      else
        some (.fillMemory kMetaDataBlock (4 + 8 + 8 + 8 + 8 + size)
          threadId memoryId offset size writeBytes)
    | none =>
      some (.fillMemory kMetaDataBlock (4 + 8 + 8 + 8 + 8 + size)
        threadId memoryId offset size writeBytes)
  else none

/-- C1: with `Write` mode on, `EndApiCallTrace` emits the compressed
function-call block — carrying `uncompressed_size = U` and the compressed
bytes — iff a compressor is installed and its reported length `C`
satisfies `0 < C < U` where `U` is the uncompressed parameter-buffer size;
in every other case (`C = 0`, `C ≥ U`, or no compressor) the uncompressed
function-call block is written with the original parameter bytes. -/
theorem c1_compression_gate (compressor : Option (List Nat → List Nat))
    (api tid : Nat) (params : List Nat) :
    (∀ comp, compressor = some comp →
      ((EndApiCallTrace true compressor api tid params =
          some (.compFuncCall (4 + 8 + 8 + (comp params).length) api tid
            params.length (comp params)))
        ↔ (0 < (comp params).length ∧ (comp params).length < params.length)) ∧
      (¬(0 < (comp params).length ∧ (comp params).length < params.length) →
        EndApiCallTrace true compressor api tid params =
          some (.funcCall (4 + 8 + params.length) api tid params))) ∧
    (compressor = none →
      EndApiCallTrace true compressor api tid params =
        some (.funcCall (4 + 8 + params.length) api tid params)) := by
  refine ⟨?_, ?_⟩
  · rintro comp rfl
    refine ⟨?_, ?_⟩
    · simp only [EndApiCallTrace, if_true]
      split
      · rename_i h
        simpa using h
      · rename_i h
        simp only [Option.some.injEq, reduceCtorEq, false_iff]
        exact h
    · intro h
      simp only [EndApiCallTrace, if_true]
      split
      · exact absurd (by assumption) h
      · rfl
  · rintro rfl
    rfl

theorem c1_compression_gate_witness :
    EndApiCallTrace true (some (fun l => List.replicate (l.length / 2) 0)) 5 1 [9, 9, 9, 9] =
      some (.compFuncCall (4 + 8 + 8 + 2) 5 1 4 [0, 0]) := by
  have h := (c1_compression_gate (some (fun l => List.replicate (l.length / 2) 0))
    5 1 [9, 9, 9, 9]).1 (fun l => List.replicate (l.length / 2) 0) rfl
  exact h.1.mpr (by decide)

/-- C3: for every block emitted by the call-end path and by the fill-memory
path, the stored `block_header.size` equals the number of bytes serialized
after the block header: 12 (`api_call_id` + `thread_id`) plus the payload
length for an uncompressed function-call block, additionally the 8-byte
`uncompressed_size` with the compressed payload length for the compressed
variant, and the fixed fields (`meta_data_type, thread_id, memory_id,
memory_offset, memory_size`) plus the written payload length for a
fill-memory metadata block of either variant. -/
theorem c3_block_size_correct :
    (∀ (writeOn : Bool) (compressor : Option (List Nat → List Nat))
        (api tid : Nat) (params : List Nat) (p : Packet),
      EndApiCallTrace writeOn compressor api tid params = some p →
      (serializeAfterBlockHeader p).length = blockSizeField p) ∧
    (∀ (writeOn : Bool) (compressor : Option (List Nat → List Nat))
        (tid mid off sz : Nat) (mem : Nat → Nat) (p : Packet),
      WriteFillMemoryCmd writeOn compressor tid mid off sz mem = some p →
      (serializeAfterBlockHeader p).length = blockSizeField p) := by
  constructor
  · intro writeOn compressor api tid params p h
    cases writeOn with
    | false => simp [EndApiCallTrace] at h
    | true =>
      cases compressor with
      | none =>
        simp only [EndApiCallTrace, if_true] at h
        cases h
        simp [serializeAfterBlockHeader, blockSizeField, encodeU32, encodeU64,
          encodeLE_length]
        omega
      | some comp =>
        simp only [EndApiCallTrace, if_true] at h
        split at h <;> cases h <;>
          · simp [serializeAfterBlockHeader, blockSizeField, encodeU32, encodeU64,
              encodeLE_length]
            omega
  · intro writeOn compressor tid mid off sz mem p h
    cases writeOn with
    | false => simp [WriteFillMemoryCmd] at h
    | true =>
      cases compressor with
      | none =>
        simp only [WriteFillMemoryCmd, if_true] at h
        cases h
        simp [serializeAfterBlockHeader, blockSizeField, encodeU32, encodeU64,
          encodeLE_length]
        omega
      | some comp =>
        simp only [WriteFillMemoryCmd, if_true] at h
        split at h <;> cases h <;>
          · simp [serializeAfterBlockHeader, blockSizeField, encodeU32, encodeU64,
              encodeLE_length]
            omega

theorem c3_block_size_correct_witness :
    (serializeAfterBlockHeader (.funcCall (4 + 8 + 1) 1 1 [7])).length =
      blockSizeField (.funcCall (4 + 8 + 1) 1 1 [7]) :=
  c3_block_size_correct.1 true none 1 1 [7] _ rfl

/-- Per-process thread-id issuance state: `ThreadData::thread_count_` and
`ThreadData::id_map_` of trace_manager.cpp:40-42, the map taking OS thread
ids to logical thread ids.  The source's `uint64_t` counter is modelled as
an unbounded natural; see the header comment. -/
structure ThreadIdState where
  thread_count : Nat
  id_map : List (Nat × Nat)
deriving DecidableEq

/-- The state before any thread has been observed (static initializers at
trace_manager.cpp:40-42). -/
def initialThreadIdState : ThreadIdState := { thread_count := 0, id_map := [] }

/-- `TraceManager::ThreadData::GetThreadId` (trace_manager.cpp:57-76): under
the id-map mutex, return the logical id already recorded for the calling OS
thread id, or issue `++thread_count_` and record it. -/
def GetThreadId (tid : Nat) (s : ThreadIdState) : Nat × ThreadIdState :=
  match s.id_map.lookup tid with
  | some id => (id, s)
  | none =>
    (s.thread_count + 1,
     { thread_count := s.thread_count + 1, id_map := (tid, s.thread_count + 1) :: s.id_map })

/-- A sequential history of OS thread ids performing their `GetThreadId`
calls (the id-map mutex serializes them). -/
def observeThreads (s : ThreadIdState) : List Nat → ThreadIdState
  | [] => s
  | t :: ts => observeThreads (GetThreadId t s).2 ts

/-- Index of the first occurrence of `t` in a list, if any. -/
def posIn (t : Nat) : List Nat → Option Nat
  | [] => none
  | x :: xs => if x = t then some 0 else (posIn t xs).map (· + 1)

theorem posIn_lt {t : Nat} : ∀ {F : List Nat} {i : Nat}, posIn t F = some i → i < F.length := by
  intro F
  induction F with
  | nil => intro i h; simp [posIn] at h
  | cons x xs ih =>
    intro i h
    simp only [posIn] at h
    split at h
    · cases h; simp
    · rcases Option.map_eq_some'.1 h with ⟨j, hj, rfl⟩
      have := ih hj
      simp; omega

theorem posIn_get {t : Nat} : ∀ {F : List Nat} {i : Nat}, posIn t F = some i →
    ∀ h : i < F.length, F.get ⟨i, h⟩ = t := by
  intro F
  induction F with
  | nil => intro i h; simp [posIn] at h
  | cons x xs ih =>
    intro i h hlt
    simp only [posIn] at h
    split at h
    · cases h; simpa using (by assumption : x = t)
    · rcases Option.map_eq_some'.1 h with ⟨j, hj, rfl⟩
      exact ih hj (by simpa using (Nat.lt_of_succ_lt_succ (by simpa using hlt)))

theorem posIn_eq_none {t : Nat} : ∀ {F : List Nat}, posIn t F = none ↔ t ∉ F := by
  intro F
  induction F with
  | nil => simp [posIn]
  | cons x xs ih =>
    simp only [posIn, List.mem_cons]
    split
    · rename_i hx
      simp [hx]
    · rename_i hx
      rw [Option.map_eq_none', ih]
      constructor
      · intro h hor
        rcases hor with rfl | hmem
        · exact hx rfl
        · exact h hmem
      · intro h hmem
        exact h (Or.inr hmem)

theorem posIn_append_some {t : Nat} {G : List Nat} :
    ∀ {F : List Nat} {i : Nat}, posIn t F = some i → posIn t (F ++ G) = some i := by
  intro F
  induction F with
  | nil => intro i h; simp [posIn] at h
  | cons x xs ih =>
    intro i h
    simp only [posIn] at h ⊢
    simp only [List.append_eq] at *
    split at h
    · rename_i hx
      cases h
      simp [posIn, hx]
    · rename_i hx
      rcases Option.map_eq_some'.1 h with ⟨j, hj, rfl⟩
      simp only [List.cons_append, posIn, if_neg hx, ih hj, Option.map_some']

theorem posIn_append_right {t : Nat} {G : List Nat} :
    ∀ {F : List Nat}, posIn t F = none →
      posIn t (F ++ G) = (posIn t G).map (· + F.length) := by
  intro F
  induction F with
  | nil => intro _; simp
  | cons x xs ih =>
    intro h
    simp only [posIn] at h
    split at h
    · cases h
    · rename_i hx
      have hnone : posIn t xs = none := Option.map_eq_none'.1 h
      have hstep : posIn t ((x :: xs) ++ G) = (posIn t (xs ++ G)).map (· + 1) := by
        simp only [List.cons_append, posIn, if_neg hx, List.append_eq]
      rw [hstep, ih hnone]
      cases posIn t G with
      | none => rfl
      | some i =>
        simp only [Option.map_some', Option.some.injEq, List.length_cons]
        omega

theorem posIn_nodup_get : ∀ {F : List Nat}, F.Nodup → ∀ (i : Nat) (h : i < F.length),
    posIn (F.get ⟨i, h⟩) F = some i := by
  intro F
  induction F with
  | nil => intro _ i h; simp at h
  | cons x xs ih =>
    intro hnd i h
    cases i with
    | zero => simp [posIn]
    | succ j =>
      have hx : x ∉ xs := (List.nodup_cons.1 hnd).1
      have hj : j < xs.length := by simpa using Nat.lt_of_succ_lt_succ h
      have hget : (x :: xs).get ⟨j + 1, h⟩ = xs.get ⟨j, hj⟩ := rfl
      rw [hget]
      have hne : x ≠ xs.get ⟨j, hj⟩ := fun he => hx (he ▸ xs.get_mem j hj)
      simp only [posIn, if_neg hne, ih (List.nodup_cons.1 hnd).2 j hj, Option.map_some']

/-- Coherence of an issuance state with the list `F` of OS thread ids in
order of first observation. -/
def GoodState (s : ThreadIdState) (F : List Nat) : Prop :=
  s.thread_count = F.length ∧ F.Nodup ∧
    ∀ t, s.id_map.lookup t = (posIn t F).map (· + 1)

theorem goodState_init : GoodState initialThreadIdState [] := by
  refine ⟨rfl, List.nodup_nil, fun t => rfl⟩

theorem goodState_step {s : ThreadIdState} {F : List Nat} (hg : GoodState s F) (t : Nat) :
    GoodState (GetThreadId t s).2 (if t ∈ F then F else F ++ [t]) := by
  obtain ⟨hc, hnd, hl⟩ := hg
  by_cases hm : t ∈ F
  · rw [if_pos hm]
    have hpos : posIn t F ≠ none := fun h => (posIn_eq_none.1 h) hm
    rcases Option.ne_none_iff_exists'.1 hpos with ⟨i, hi⟩
    simp only [GetThreadId, hl t, hi, Option.map_some']
    exact ⟨hc, hnd, hl⟩
  · rw [if_neg hm]
    have hpos : posIn t F = none := posIn_eq_none.2 hm
    simp only [GetThreadId, hl t, hpos, Option.map_none']
    refine ⟨by simp [hc], ?_, ?_⟩
    · rw [List.nodup_append]
      exact ⟨hnd, List.nodup_singleton t,
        fun a ha hat => hm ((List.mem_singleton.1 hat) ▸ ha)⟩
    · intro u
      rcases eq_or_ne u t with rfl | hu
      · have h1 : List.lookup u ((u, s.thread_count + 1) :: s.id_map) =
            some (s.thread_count + 1) := by
          simp [List.lookup]
        rw [h1, posIn_append_right hpos]
        simp [posIn, hc]
      · have hbeq : (u == t) = false := by simpa using hu
        have h1 : List.lookup u ((t, s.thread_count + 1) :: s.id_map) =
            List.lookup u s.id_map := by
          simp [List.lookup, hbeq]
        rw [h1, hl u]
        cases hui : posIn u F with
        | none =>
          rw [posIn_append_right hui]
          have htu : ¬t = u := fun h => hu h.symm
          simp [posIn, htu]
        | some i =>
          rw [posIn_append_some hui]

theorem goodState_observe (l : List Nat) :
    ∀ (s : ThreadIdState) (F : List Nat), GoodState s F →
      ∃ F', GoodState (observeThreads s l) F' := by
  induction l with
  | nil => intro s F h; exact ⟨F, h⟩
  | cons t ts ih =>
    intro s F h
    exact ih _ _ (goodState_step h t)

/-- C8: the OS-thread-id to logical-thread-id mapping is injective and
stable.  For the state reached after any serialized history `l` of
`GetThreadId` calls from the initial state: repeated calls by the same
thread return the same logical id; distinct OS thread ids hold distinct
logical ids; the logical ids held are exactly `1, 2, ..., thread_count_`,
a fresh OS thread id is issued the next number in sequence, and `0` is
never issued. -/
theorem c8_thread_ids (l : List Nat) :
    (∀ (s : ThreadIdState) (t : Nat),
       (GetThreadId t (GetThreadId t s).2).1 = (GetThreadId t s).1) ∧
    (∀ t u id,
       (observeThreads initialThreadIdState l).id_map.lookup t = some id →
       (observeThreads initialThreadIdState l).id_map.lookup u = some id → t = u) ∧
    (∀ t id, (observeThreads initialThreadIdState l).id_map.lookup t = some id →
       1 ≤ id ∧ id ≤ (observeThreads initialThreadIdState l).thread_count) ∧
    (∀ id, 1 ≤ id → id ≤ (observeThreads initialThreadIdState l).thread_count →
       ∃ t, (observeThreads initialThreadIdState l).id_map.lookup t = some id) ∧
    (∀ (s : ThreadIdState) (t : Nat), s.id_map.lookup t = none →
       (GetThreadId t s).1 = s.thread_count + 1) ∧
    (∀ t, (GetThreadId t (observeThreads initialThreadIdState l)).1 ≠ 0) := by
  obtain ⟨F, hc, hnd, hl⟩ := goodState_observe l initialThreadIdState [] goodState_init
  refine ⟨?_, ?_, ?_, ?_, ?_, ?_⟩
  · intro s t
    cases hlt : s.id_map.lookup t with
    | some id => simp [GetThreadId, hlt]
    | none => simp [GetThreadId, hlt, List.lookup]
  · intro t u id ht hu
    rw [hl t] at ht
    rw [hl u] at hu
    rcases Option.map_eq_some'.1 ht with ⟨i, hi, hid⟩
    rcases Option.map_eq_some'.1 hu with ⟨j, hj, hjd⟩
    have hij : i = j := by omega
    subst hij
    have h1 := posIn_get hi (posIn_lt hi)
    have h2 := posIn_get hj (posIn_lt hj)
    rw [← h1, ← h2]
  · intro t id ht
    rw [hl t] at ht
    rcases Option.map_eq_some'.1 ht with ⟨i, hi, hid⟩
    have hil := posIn_lt hi
    rw [hc]
    omega
  · intro id h1 h2
    rw [hc] at h2
    have hi : id - 1 < F.length := by omega
    refine ⟨F.get ⟨id - 1, hi⟩, ?_⟩
    rw [hl, posIn_nodup_get hnd (id - 1) hi]
    simp only [Option.map_some', Option.some.injEq]
    omega
  · intro s t h
    simp [GetThreadId, h]
  · intro t
    cases hlt : (observeThreads initialThreadIdState l).id_map.lookup t with
    | some id =>
      have hlt2 := hlt
      rw [hl t] at hlt2
      rcases Option.map_eq_some'.1 hlt2 with ⟨i, hi, hid⟩
      simp only [GetThreadId, hlt]
      omega
    | none => simp [GetThreadId, hlt]

theorem c8_thread_ids_witness :
    1 ≤ 2 ∧ 2 ≤ (observeThreads initialThreadIdState [10, 20, 10]).thread_count :=
  (c8_thread_ids [10, 20, 10]).2.2.1 20 2 (by decide)

/-- The 64-bit `VkDeviceSize` sentinel meaning "to the end of the
allocation". -/
def VK_WHOLE_SIZE : Nat := 2 ^ 64 - 1

/-- The fields of the external `DeviceMemoryWrapper` entity that the core
reads and writes (spec data model; the wrapper type itself lives outside
the sources).  `mapped_data` is the host pointer (`none` for `nullptr`);
pointers are modelled as naturals. -/
structure DeviceMemoryWrapper where
  allocation_size : Nat
  mapped_data : Option Nat
  mapped_offset : Nat
  mapped_size : Nat
deriving DecidableEq, Inhabited

/-- One region tracked by the page-guard manager: its registered size and
its currently dirty `(offset, size)` sub-ranges. -/
structure PGRegion where
  size : Nat
  dirty : List (Nat × Nat)
deriving DecidableEq

/-- Modelled from the spec: `util::PageGuardManager` is outside the
sources; the core consumes it through `AddMemory`, `ProcessMemoryEntry`,
`ProcessMemoryEntries` and `RemoveMemory` only.  `tracked` associates each
registered `memory_id` with its region; `shadowPolicy` is the manager's
choice of effective pointer (which may be shadow memory) returned by
`AddMemory`. -/
structure PageGuardManager where
  shadowPolicy : Nat → Nat → Nat → Nat
  tracked : List (Nat × PGRegion)

/-- The ids currently tracked by the page-guard manager. -/
def trackedIds (pg : PageGuardManager) : List Nat := pg.tracked.map (·.1)

/-- Modelled from the spec: `AddMemory(memory_id, mapped_ptr, size, false)`
registers the region (clean) and returns the effective pointer the
application should use. -/
def AddMemory (pg : PageGuardManager) (id ptr size : Nat) : PageGuardManager × Nat :=
  ({ pg with tracked := (id, { size := size, dirty := [] }) :: pg.tracked },
   pg.shadowPolicy id ptr size)

/-- Modelled from the spec: `RemoveMemory(memory_id)` releases tracking. -/
def RemoveMemory (pg : PageGuardManager) (id : Nat) : PageGuardManager :=
  { pg with tracked := pg.tracked.filter (fun e => e.1 != id) }

/-- Events observable at the trace-manager boundary during the memory
hooks: a logged warning, an invocation of the page-guard manager's
`ProcessMemoryEntry` for a memory id, and a `FillMemoryCommand` packet
with its `memory_id`, `memory_offset` and `memory_size` fields. -/
inductive MEvent where
  | warning
  | processEntry (id : Nat)
  | fill (memoryId memoryOffset memorySize : Nat)
deriving DecidableEq

/-- Modelled from the spec: `ProcessMemoryEntry(memory_id, visitor)` calls
the visitor once per dirty sub-range of the tracked region and then marks
the region clean.  The visitor used by the core is `WriteFillMemoryCmd`,
which emits a packet only while `Write` mode is on (`writeOn`). -/
def ProcessMemoryEntry (writeOn : Bool) (pg : PageGuardManager) (id : Nat) :
    PageGuardManager × List MEvent :=
  match pg.tracked.lookup id with
  | some region =>
    ({ pg with tracked :=
        pg.tracked.map (fun e => if e.1 = id then (e.1, { e.2 with dirty := [] }) else e) },
     if writeOn then region.dirty.map (fun d => MEvent.fill id d.1 d.2) else [])
  | none => (pg, [])

/-- Modelled from the spec: `ProcessMemoryEntries(visitor)` is
`ProcessMemoryEntry` over every tracked region. -/
def ProcessMemoryEntries (writeOn : Bool) (pg : PageGuardManager) :
    PageGuardManager × List MEvent :=
  ({ pg with tracked := pg.tracked.map (fun e => (e.1, { e.2 with dirty := [] })) },
   if writeOn then
     (pg.tracked.map (fun e => e.2.dirty.map (fun d => MEvent.fill e.1 d.1 d.2))).flatten
   else [])

/-- The memory-tracking mode, chosen at initialization and immutable
thereafter (`CaptureSettings::MemoryTrackingMode`). -/
inductive MemoryTrackingMode where
  | pageGuard
  | assisted
  | unassisted
deriving DecidableEq

/-- The slice of `TraceManager` state the memory hooks touch:
`memory_tracking_mode_`, the `Write` and `Track` bits of `capture_mode_`,
the device-memory wrappers (a total map from handle id, since the source
dereferences wrapper pointers directly), the `mapped_memory_` set of the
unassisted mode, and the page-guard manager.  When `Track` is on the
external state tracker (`VulkanStateTracker::TrackMappedMemory`, outside
the sources) records the same three mapping fields on the wrapper that the
core records when it is off, so both branches are one update here. -/
structure MemState where
  tracking_mode : MemoryTrackingMode
  write_on : Bool
  track_on : Bool
  wrappers : Nat → DeviceMemoryWrapper
  mapped_memory : List Nat
  pg : PageGuardManager

/-- A `WriteFillMemoryCmd` call at the event level: a fill packet is
emitted only while `Write` mode is on. -/
def emitFill (st : MemState) (id off size : Nat) : List MEvent :=
  if st.write_on then [MEvent.fill id off size] else []

/-- `TraceManager::PostProcess_vkMapMemory` (trace_manager.cpp:770-834).
Arguments: success of the driver call, the memory handle id, the map
offset and size, and the contents of the application's `ppData` out
parameter (`none` for `nullptr`).  Returns the new state, the pointer left
in `*ppData`, and the events. -/
def PostProcess_vkMapMemory (st : MemState) (success : Bool) (memory offset size : Nat)
    (pp : Option Nat) : MemState × Option Nat × List MEvent :=
  match pp with
  | none => (st, none, [])
  | some pdata =>
    if success then
      let w := st.wrappers memory
      match w.mapped_data with
      | none =>
        let w1 := { w with mapped_data := some pdata, mapped_offset := offset,
                           mapped_size := size }
        let st1 := { st with wrappers := fun i => if i = memory then w1 else st.wrappers i }
        match st.tracking_mode with
        | .pageGuard =>
          let rsize := if size = VK_WHOLE_SIZE then w.allocation_size else size
          if 0 < rsize then
            let res := AddMemory st1.pg memory pdata rsize
            ({ st1 with pg := res.1 }, some res.2, [])
          else (st1, some pdata, [])
        | .unassisted =>
          ({ st1 with mapped_memory :=
              if st1.mapped_memory.contains memory then st1.mapped_memory
              else memory :: st1.mapped_memory }, some pdata, [])
        | .assisted => (st1, some pdata, [])
      | some _ => (st, some pdata, [MEvent.warning])
    else (st, some pdata, [])

/-- `TraceManager::PreProcess_vkUnmapMemory` (trace_manager.cpp:904-960). -/
def PreProcess_vkUnmapMemory (st : MemState) (memory : Nat) : MemState × List MEvent :=
  let w := st.wrappers memory
  match w.mapped_data with
  | some _ =>
    let w1 := { w with mapped_data := none, mapped_offset := 0, mapped_size := 0 }
    let st1 := { st with wrappers := fun i => if i = memory then w1 else st.wrappers i }
    match st.tracking_mode with
    | .pageGuard =>
      let res := ProcessMemoryEntry st.write_on st1.pg memory
      ({ st1 with pg := RemoveMemory res.1 memory }, MEvent.processEntry memory :: res.2)
    | .unassisted =>
      let rsize := if w.mapped_size = VK_WHOLE_SIZE then w.allocation_size else w.mapped_size
      ({ st1 with mapped_memory := st1.mapped_memory.filter (· != memory) },
       emitFill st memory 0 rsize)
    | .assisted => (st1, [])
  | none => (st, [MEvent.warning])

/-- `TraceManager::PreProcess_vkQueueSubmit` (trace_manager.cpp:981-1011).
In the unassisted branch the source passes `wrapper->mapped_size` to
`WriteFillMemoryCmd` as it is stored, without resolving `VK_WHOLE_SIZE`. -/
def PreProcess_vkQueueSubmit (st : MemState) : MemState × List MEvent :=
  match st.tracking_mode with
  | .pageGuard =>
    let res := ProcessMemoryEntries st.write_on st.pg
    ({ st with pg := res.1 }, res.2)
  | .unassisted =>
    (st, (st.mapped_memory.map (fun id => emitFill st id 0 (st.wrappers id).mapped_size)).flatten)
  | .assisted => (st, [])

/-- The page-guard branch of `PreProcess_vkFlushMappedMemoryRanges`
(trace_manager.cpp:844-873): walk the ranges' memory objects (each an
`Option Nat`, `none` for a null wrapper pointer), skipping a range whose
wrapper pointer equals `current_memory_wrapper` (initially null), and for
the rest harvest dirty pages when mapped or log a warning when not. -/
def flushRangesPG (st : MemState) (cur : Option Nat) :
    List (Option Nat) → MemState × List MEvent
  | [] => (st, [])
  | r :: rest =>
    if r = cur then flushRangesPG st cur rest
    else
      match r with
      | none =>
        let res := flushRangesPG st none rest
        (res.1, MEvent.warning :: res.2)
      | some id =>
        if (st.wrappers id).mapped_data.isSome then
          let p := ProcessMemoryEntry st.write_on st.pg id
          let res := flushRangesPG { st with pg := p.1 } (some id) rest
          (res.1, (MEvent.processEntry id :: p.2) ++ res.2)
        else
          let res := flushRangesPG st (some id) rest
          (res.1, MEvent.warning :: res.2)

/-- `TraceManager::PreProcess_vkFlushMappedMemoryRanges`
(trace_manager.cpp:836-902).  A range is its memory object reference plus
its `(offset, size)` pair; the page-guard branch uses only the references,
the assisted branch re-bases each offset against the wrapper's
`mapped_offset` and resolves `VK_WHOLE_SIZE` against
`allocation_size - offset`. -/
def PreProcess_vkFlushMappedMemoryRanges (st : MemState)
    (ranges : List (Option Nat × Nat × Nat)) : MemState × List MEvent :=
  match st.tracking_mode with
  | .pageGuard => flushRangesPG st none (ranges.map (·.1))
  | .assisted =>
    (st, (ranges.map (fun r =>
      match r.1 with
      | some id =>
        let w := st.wrappers id
        match w.mapped_data with
        | some _ =>
          let relOff := r.2.1 - w.mapped_offset
          let sz := if r.2.2 = VK_WHOLE_SIZE then w.allocation_size - r.2.1 else r.2.2
          emitFill st id relOff sz
        | none => []
      | none => [])).flatten)
  | .unassisted => (st, [])

/-- An empty page-guard manager with a fixed shadow policy, for concrete
runs. -/
def pgEmpty : PageGuardManager := { shadowPolicy := fun _ _ _ => 0, tracked := [] }

/-- C7: memory-contract violations are warning-only no-ops.  Mapping a
wrapper whose `mapped_data` is already non-null logs a warning, leaves the
whole state (wrapper fields, mapped-memory set, page-guard manager)
unchanged, keeps the application's pointer, and emits no packet; unmapping
a wrapper whose `mapped_data` is null logs a warning, changes nothing and
emits no packet. -/
theorem c7_contract_violation_noop :
    (∀ (st : MemState) (memory offset size pdata : Nat),
       (st.wrappers memory).mapped_data ≠ none →
       PostProcess_vkMapMemory st true memory offset size (some pdata) =
         (st, some pdata, [MEvent.warning])) ∧
    (∀ (st : MemState) (memory : Nat),
       (st.wrappers memory).mapped_data = none →
       PreProcess_vkUnmapMemory st memory = (st, [MEvent.warning])) := by
  constructor
  · intro st memory offset size pdata h
    rcases hm : (st.wrappers memory).mapped_data with _ | p
    · exact absurd hm h
    · simp [PostProcess_vkMapMemory, hm]
  · intro st memory h
    simp [PreProcess_vkUnmapMemory, h]

/-- A state with every wrapper mapped, for concrete runs. -/
def allMappedState : MemState :=
  { tracking_mode := .pageGuard, write_on := true, track_on := false,
    wrappers := fun _ =>
      { allocation_size := 4096, mapped_data := some 555, mapped_offset := 0,
        mapped_size := 4096 },
    mapped_memory := [], pg := pgEmpty }

theorem c7_contract_violation_noop_witness :
    PostProcess_vkMapMemory allMappedState true 1 0 16 (some 5) =
      (allMappedState, some 5, [MEvent.warning]) :=
  c7_contract_violation_noop.1 allMappedState 1 0 16 5 (by decide)

/-- C9: in page-guard mode a first map of an unmapped wrapper registers
with the page-guard manager and substitutes the manager's effective
pointer exactly when the resolved size (`VK_WHOLE_SIZE` resolved against
`allocation_size`) is positive; at resolved size zero the application's
pointer and the manager are left unchanged, and since every fill packet
produced by `ProcessMemoryEntries` names a tracked id, an untracked region
can never produce one. -/
theorem c9_pageguard_zero_size (st : MemState) (memory offset size pdata : Nat)
    (hmode : st.tracking_mode = .pageGuard)
    (hunmapped : (st.wrappers memory).mapped_data = none) :
    ((if size = VK_WHOLE_SIZE then (st.wrappers memory).allocation_size else size) = 0 →
       (PostProcess_vkMapMemory st true memory offset size (some pdata)).2.1 = some pdata ∧
       (PostProcess_vkMapMemory st true memory offset size (some pdata)).1.pg = st.pg) ∧
    (0 < (if size = VK_WHOLE_SIZE then (st.wrappers memory).allocation_size else size) →
       (PostProcess_vkMapMemory st true memory offset size (some pdata)).2.1 =
         some ((AddMemory st.pg memory pdata
           (if size = VK_WHOLE_SIZE then (st.wrappers memory).allocation_size else size)).2) ∧
       memory ∈ trackedIds (PostProcess_vkMapMemory st true memory offset size (some pdata)).1.pg) ∧
    (∀ (writeOn : Bool) (pg : PageGuardManager) (id off sz : Nat),
       MEvent.fill id off sz ∈ (ProcessMemoryEntries writeOn pg).2 → id ∈ trackedIds pg) := by
  refine ⟨?_, ?_, ?_⟩
  · intro h0
    simp only [PostProcess_vkMapMemory, hunmapped, hmode, if_true, h0]
    simp
  · intro hpos
    have hne : ¬(if size = VK_WHOLE_SIZE then (st.wrappers memory).allocation_size else size) = 0 := by
      omega
    simp only [PostProcess_vkMapMemory, hunmapped, hmode, if_true]
    rw [if_pos hpos]
    refine ⟨rfl, ?_⟩
    simp [AddMemory, trackedIds]
  · intro writeOn pg id off sz hmem
    cases writeOn with
    | false => simp [ProcessMemoryEntries] at hmem
    | true =>
      simp only [ProcessMemoryEntries, if_true] at hmem
      rcases List.mem_flatten.1 hmem with ⟨l, hl, hev⟩
      rcases List.mem_map.1 hl with ⟨e, he, rfl⟩
      rcases List.mem_map.1 hev with ⟨d, _, hfe⟩
      injection hfe with h1 h2 h3
      rw [← h1]
      exact List.mem_map_of_mem _ he

/-- A state whose wrappers are unmapped with a zero allocation size, for
concrete runs. -/
def zeroAllocState : MemState :=
  { tracking_mode := .pageGuard, write_on := true, track_on := false,
    wrappers := fun _ =>
      { allocation_size := 0, mapped_data := none, mapped_offset := 0, mapped_size := 0 },
    mapped_memory := [], pg := pgEmpty }

theorem c9_pageguard_zero_size_witness :
    (PostProcess_vkMapMemory zeroAllocState true 1 0 VK_WHOLE_SIZE (some 42)).2.1 =
        some 42 ∧
      (PostProcess_vkMapMemory zeroAllocState true 1 0 VK_WHOLE_SIZE (some 42)).1.pg =
        zeroAllocState.pg :=
  (c9_pageguard_zero_size zeroAllocState 1 0 VK_WHOLE_SIZE 42 rfl rfl).1 (by decide)

/-- A wrapper mapped with the unresolved `VK_WHOLE_SIZE` recorded as its
`mapped_size` (the map-time policy stores the field unresolved). -/
def wholeSizeWrapper : DeviceMemoryWrapper :=
  { allocation_size := 1024, mapped_data := some 777, mapped_offset := 0,
    mapped_size := VK_WHOLE_SIZE }

/-- An unassisted-mode state with one currently-mapped wrapper whose
recorded `mapped_size` is the `VK_WHOLE_SIZE` sentinel. -/
def unassistedSubmitState : MemState :=
  { tracking_mode := .unassisted, write_on := true, track_on := false,
    wrappers := fun i => if i = 1 then wholeSizeWrapper else default,
    mapped_memory := [1], pg := pgEmpty }

/-- C4: evaluation at the failing input.  The unassisted queue-submit
branch (trace_manager.cpp:1000-1010) passes `wrapper->mapped_size` to
`WriteFillMemoryCmd` literally, so a wrapper mapped with `VK_WHOLE_SIZE`
produces a `FillMemoryCommand` whose `memory_size` is the sentinel
`2 ^ 64 - 1` instead of the resolved extent `allocation_size = 1024`
(the unmap branch at trace_manager.cpp:941-947 does resolve it); the
second submit with no remap repeats the same packet. -/
theorem c4_unassisted_submit_literal_whole_size :
    (PreProcess_vkQueueSubmit unassistedSubmitState).2 =
      [MEvent.fill 1 0 VK_WHOLE_SIZE] ∧
    (PreProcess_vkQueueSubmit (PreProcess_vkQueueSubmit unassistedSubmitState).1).2 =
      [MEvent.fill 1 0 VK_WHOLE_SIZE] ∧
    VK_WHOLE_SIZE ≠ wholeSizeWrapper.allocation_size := by
  refine ⟨rfl, rfl, by decide⟩

/-- C6 counterexample: in page-guard mode a flush whose range list
references memory objects A, B, A (all mapped) invokes the manager's
`ProcessMemoryEntry` for A twice in the one call — the source only
suppresses *consecutive* ranges referencing the same object
(trace_manager.cpp:855), so "at most once per call" fails. -/
theorem c6_flush_duplicate_counterexample :
    ((PreProcess_vkFlushMappedMemoryRanges allMappedState
        [(some 1, 0, 64), (some 2, 0, 64), (some 1, 0, 64)]).2.count
      (MEvent.processEntry 1)) = 2 ∧
    ¬((PreProcess_vkFlushMappedMemoryRanges allMappedState
        [(some 1, 0, 64), (some 2, 0, 64), (some 1, 0, 64)]).2.count
      (MEvent.processEntry 1)) ≤ 1 := by
  exact ⟨rfl, by decide⟩

/-- C6 (amended): in page-guard mode the flush loop suppresses
*consecutive* ranges referencing the same memory object (so each maximal
consecutive run is harvested at most once, but an object referenced again
later in the list is harvested again); a suppressed duplicate changes
nothing, a kept range whose object is mapped gets exactly one
`ProcessMemoryEntry` invocation, and a kept range whose object is null or
not mapped produces only a warning. -/
theorem c6_flush_dedup_consecutive :
    (∀ (st : MemState) (cur r : Option Nat) (l1 l2 : List (Option Nat)),
       flushRangesPG st cur (l1 ++ r :: r :: l2) = flushRangesPG st cur (l1 ++ r :: l2)) ∧
    (∀ (st : MemState) (cur : Option Nat) (id : Nat) (rest : List (Option Nat)),
       some id ≠ cur → (st.wrappers id).mapped_data = none →
       flushRangesPG st cur (some id :: rest) =
         ((flushRangesPG st (some id) rest).1,
          MEvent.warning :: (flushRangesPG st (some id) rest).2)) ∧
    (∀ (st : MemState) (cur : Option Nat) (id : Nat) (rest : List (Option Nat)),
       some id ≠ cur → (st.wrappers id).mapped_data.isSome = true →
       flushRangesPG st cur (some id :: rest) =
         ((flushRangesPG { st with pg := (ProcessMemoryEntry st.write_on st.pg id).1 }
             (some id) rest).1,
          (MEvent.processEntry id :: (ProcessMemoryEntry st.write_on st.pg id).2) ++
            (flushRangesPG { st with pg := (ProcessMemoryEntry st.write_on st.pg id).1 }
               (some id) rest).2)) := by
  refine ⟨?_, ?_, ?_⟩
  · intro st cur r l1
    induction l1 generalizing st cur with
    | nil =>
      intro l2
      by_cases hr : r = cur
      · simp only [List.nil_append, flushRangesPG, if_pos hr]
      · cases r with
        | none => simp [flushRangesPG, hr]
        | some id =>
          by_cases hmap : (st.wrappers id).mapped_data.isSome
          · simp [flushRangesPG, hr, hmap]
          · simp [flushRangesPG, hr, hmap]
    | cons x l1 ih =>
      intro l2
      by_cases hx : x = cur
      · simp only [List.cons_append, flushRangesPG, if_pos hx]
        exact ih st cur l2
      · cases x with
        | none =>
          simp only [List.cons_append, flushRangesPG, if_neg hx, List.append_eq]
          rw [ih]
        | some id =>
          by_cases hmap : (st.wrappers id).mapped_data.isSome
          · simp only [List.cons_append, flushRangesPG, if_neg hx, hmap, if_true,
              List.append_eq]
            rw [ih]
          · simp only [List.cons_append, flushRangesPG, if_neg hx, hmap,
              List.append_eq]
            simp only [ih]
  · intro st cur id rest hne hm
    simp [flushRangesPG, hne, hm]
  · intro st cur id rest hne hm
    simp [flushRangesPG, hne, hm]

/-- A state whose wrappers are all unmapped, for concrete runs. -/
def allUnmappedState : MemState :=
  { tracking_mode := .pageGuard, write_on := true, track_on := false,
    wrappers := fun _ =>
      { allocation_size := 16, mapped_data := none, mapped_offset := 0, mapped_size := 0 },
    mapped_memory := [], pg := pgEmpty }

theorem c6_flush_dedup_consecutive_witness :
    flushRangesPG allUnmappedState none [some 3] =
      ((flushRangesPG allUnmappedState (some 3) []).1,
       MEvent.warning :: (flushRangesPG allUnmappedState (some 3) []).2) :=
  c6_flush_dedup_consecutive.2.1 allUnmappedState none 3 [] (by decide) rfl

/-- A configured trim range `{first_frame, count}`
(`CaptureSettings::TrimRange`; the source names the count `total`). -/
structure TrimRange where
  first : Nat
  total : Nat
deriving DecidableEq

/-- The capture mode bitmask over the `Write` and `Track` bits. -/
structure CaptureMode where
  write : Bool
  track : Bool
deriving DecidableEq

def kModeDisabled : CaptureMode := ⟨false, false⟩

def kModeWrite : CaptureMode := ⟨true, false⟩

def kModeTrack : CaptureMode := ⟨false, true⟩

def kModeWriteAndTrack : CaptureMode := ⟨true, true⟩

/-- The slice of `TraceManager` state the frame/trim machinery touches:
`trim_enabled_`, `trim_ranges_` (whose stored `total`s the source
decrements in place), `trim_current_range_`, `current_frame_`,
`capture_mode_`, and whether the file stream, state tracker and compressor
are currently held (`file_stream_ != nullptr` etc.). -/
structure TMState where
  trim_enabled : Bool
  trim_ranges : List TrimRange
  trim_current_range : Nat
  current_frame : Nat
  capture_mode : CaptureMode
  file_open : Bool
  has_state_tracker : Bool
  has_compressor : Bool
deriving DecidableEq

/-- Decrement in place the stored `total` of the range at index `i`
(`--trim_ranges_[trim_current_range_].total`).  On every state reachable
under a legal configuration the decremented total is positive, so the
truncated `Nat` subtraction agrees with the source's `uint32_t`. -/
def modifyTotal : List TrimRange → Nat → List TrimRange
  | [], _ => []
  | r :: rs, 0 => { r with total := r.total - 1 } :: rs
  | r :: rs, n + 1 => r :: modifyTotal rs n

/-- The trim range stored at index `i` (`trim_ranges_[i]`; every access
in the source is in bounds on the states the claims reach). -/
def rangeAt (l : List TrimRange) (i : Nat) : TrimRange := l.getD i ⟨0, 0⟩

/-- `TraceManager::ActivateTrimming` (trace_manager.cpp:454-473) given
whether `CreateCaptureFile` succeeds: on success the `Write` bit is set
and the new file is open (the state snapshot write does not change this
state slice); on failure the file stream is null, trim is disabled and
the mode becomes `Disabled` — the compressor and state tracker members
are not touched on this path. -/
def ActivateTrimming (fileOk : Bool) (st : TMState) : TMState :=
  if fileOk then
    { st with capture_mode := ⟨true, st.capture_mode.track⟩, file_open := true }
  else
    { st with trim_enabled := false, capture_mode := kModeDisabled, file_open := false }

/-- `TraceManager::EndFrame` (trace_manager.cpp:359-403).  When trim is
enabled the frame counter is incremented first; while writing, the active
range's remaining total is decremented and, at zero, the `Write` bit is
cleared, the file closed and the range index advanced — past the last
range everything is released and the mode becomes `Disabled`, while a next
range starting at the new current frame activates trimming; while only
tracking, a range starting at the new current frame activates trimming.
`fileOk` is whether a `CreateCaptureFile` attempted during this call
succeeds. -/
def EndFrame (fileOk : Bool) (st : TMState) : TMState :=
  if st.trim_enabled then
    let f := st.current_frame + 1
    if st.capture_mode.write then
      let ranges := modifyTotal st.trim_ranges st.trim_current_range
      if (rangeAt ranges st.trim_current_range).total = 0 then
        let st1 : TMState :=
          { st with trim_ranges := ranges, current_frame := f,
                    capture_mode := ⟨false, st.capture_mode.track⟩, file_open := false,
                    trim_current_range := st.trim_current_range + 1 }
        if st1.trim_ranges.length ≤ st1.trim_current_range then
          { st1 with trim_enabled := false, capture_mode := kModeDisabled,
                     has_state_tracker := false, has_compressor := false }
        else if (rangeAt st1.trim_ranges st1.trim_current_range).first = f then
          ActivateTrimming fileOk st1
        else st1
      else { st with trim_ranges := ranges, current_frame := f }
    else if st.capture_mode.track then
      if (rangeAt st.trim_ranges st.trim_current_range).first = f then
        ActivateTrimming fileOk { st with current_frame := f }
      else { st with current_frame := f }
    else { st with current_frame := f }
  else st

/-- `TraceManager::Initialize` (trace_manager.cpp:196-262) restricted to
this state slice, from the constructor defaults (trace_manager.cpp:78-82).
`fileOk` is whether the `CreateCaptureFile` performed here (if any)
succeeds; compressor creation itself is assumed to succeed (a known
compression type).  On failure the mode is overridden to `Disabled`;
note the source leaves `trim_enabled_` set in that case. -/
def InitTraceState (ranges : List TrimRange) (fileOk : Bool) : TMState :=
  let st0 : TMState :=
    { trim_enabled := false, trim_ranges := [], trim_current_range := 0,
      current_frame := 1, capture_mode := kModeWrite, file_open := false,
      has_state_tracker := false, has_compressor := false }
  match ranges with
  | [] =>
    if fileOk then
      { st0 with file_open := true, has_compressor := true,
                 has_state_tracker := st0.capture_mode.track }
    else { st0 with capture_mode := kModeDisabled }
  | r :: rest =>
    let st1 := { st0 with trim_enabled := true, trim_ranges := r :: rest }
    if r.first = st0.current_frame then
      let st2 := if 1 < (r :: rest).length then
          { st1 with capture_mode := kModeWriteAndTrack } else st1
      if fileOk then
        { st2 with file_open := true, has_compressor := true,
                   has_state_tracker := st2.capture_mode.track }
      else { st2 with capture_mode := kModeDisabled }
    else
      let st2 := { st1 with capture_mode := kModeTrack }
      { st2 with has_compressor := true,
                 has_state_tracker := st2.capture_mode.track }

/-- `n` frames are ended in sequence; `oracle k` is whether a capture-file
creation attempted during the `k`-th `EndFrame` succeeds. -/
def RunFrames (oracle : Nat → Bool) (st : TMState) : Nat → TMState
  | 0 => st
  | n + 1 => EndFrame (oracle n) (RunFrames oracle st n)

/-- End frame of a range, one past its last captured frame. -/
def endOf (r : TrimRange) : Nat := r.first + r.total

/-- Legality of a trim-range list from lower bound `lo` on the next first
frame: positive counts, monotonically increasing and non-overlapping. -/
def legalFrom : Nat → List TrimRange → Bool
  | _, [] => true
  | lo, r :: rs => (decide (lo ≤ r.first) && decide (0 < r.total)) && legalFrom (endOf r) rs

/-- One past the last frame of the last range (`1` for no ranges). -/
def lastEnd (l : List TrimRange) : Nat :=
  match l.getLast? with
  | some r => endOf r
  | none => 1

/-- A legal trim-range list: 1-based, positive counts, monotonically
increasing, non-overlapping, and ends representable in the source's
32-bit frame counter. -/
def legalRanges (l : List TrimRange) : Bool :=
  legalFrom 1 l && decide (lastEnd l < 2 ^ 32)

/-- Does frame `f` fall in one of the configured ranges? -/
def inRangeB (l : List TrimRange) (f : Nat) : Bool :=
  l.any (fun r => decide (r.first ≤ f) && decide (f < endOf r))

/-- Zero out the stored totals of completed ranges. -/
def zeroRanges (l : List TrimRange) : List TrimRange :=
  l.map (fun r => { r with total := 0 })

/-- Whether state tracking is required by the configuration: more than one
range, or a first range that does not start at frame 1. -/
def trackNeeded (l : List TrimRange) : Bool :=
  decide (1 < l.length) ||
    (match l.head? with
     | some r => decide (r.first ≠ 1)
     | none => false)

/-- C10: when trim is not enabled — no trim ranges were configured, or
trim was later disabled (both disabling paths clear `trim_enabled_`) —
every `EndFrame` call is a complete no-op: the frame counter, capture
mode, file stream, compressor and state tracker are all unchanged. -/
theorem c10_endframe_noop_without_trim :
    (∀ (fileOk : Bool) (st : TMState), st.trim_enabled = false →
       EndFrame fileOk st = st) ∧
    (∀ fileOk : Bool, (InitTraceState [] fileOk).trim_enabled = false) := by
  constructor
  · intro fileOk st h
    simp [EndFrame, h]
  · intro fileOk
    cases fileOk <;> rfl

theorem c10_endframe_noop_without_trim_witness :
    EndFrame true (InitTraceState [] true) = InitTraceState [] true :=
  c10_endframe_noop_without_trim.1 true (InitTraceState [] true)
    (c10_endframe_noop_without_trim.2 true)

/-- C5 counterexample: run trim ranges `[1,1], [3,1]` with the initial
capture file opening successfully, end frame 1 (closes the first range),
then end frame 2 with the trim-activation `CreateCaptureFile` failing.
The mode transitions to `Disabled`, but the compressor and the state
tracker are still held — they are released only on singleton destruction —
refuting "all owned resources are released on every transition to
`Disabled`". -/
theorem c5_activation_failure_counterexample :
    (EndFrame false (EndFrame true (InitTraceState [⟨1, 1⟩, ⟨3, 1⟩] true))).capture_mode =
        kModeDisabled ∧
      (EndFrame false (EndFrame true (InitTraceState [⟨1, 1⟩, ⟨3, 1⟩] true))).trim_enabled =
        false ∧
      (EndFrame false (EndFrame true (InitTraceState [⟨1, 1⟩, ⟨3, 1⟩] true))).has_compressor =
        true ∧
      (EndFrame false (EndFrame true (InitTraceState [⟨1, 1⟩, ⟨3, 1⟩] true))).has_state_tracker =
        true := by
  decide

/-- C5 (amended): on the end-of-last-trim-range transition to `Disabled`
in `EndFrame` the file stream, compressor and state tracker are all
released; on a trim-activation failure (from either the between-ranges
or the waiting path) the transition to `Disabled` closes only the file
stream (which failed to open) and disables trim, while the compressor and
state tracker fields are retained unchanged until singleton destruction;
the failure is logged fatal and the process continues with a no-op
trace. -/
theorem c5_disable_release_paths :
    (∀ (fileOk : Bool) (st : TMState),
       st.trim_enabled = true → st.capture_mode.write = true →
       (rangeAt (modifyTotal st.trim_ranges st.trim_current_range)
           st.trim_current_range).total = 0 →
       (modifyTotal st.trim_ranges st.trim_current_range).length ≤
           st.trim_current_range + 1 →
       (EndFrame fileOk st).capture_mode = kModeDisabled ∧
         (EndFrame fileOk st).trim_enabled = false ∧
         (EndFrame fileOk st).file_open = false ∧
         (EndFrame fileOk st).has_state_tracker = false ∧
         (EndFrame fileOk st).has_compressor = false) ∧
    (∀ st : TMState,
       st.trim_enabled = true → st.capture_mode.write = false →
       st.capture_mode.track = true →
       (rangeAt st.trim_ranges st.trim_current_range).first = st.current_frame + 1 →
       EndFrame false st =
         { st with current_frame := st.current_frame + 1,
                   trim_enabled := false, capture_mode := kModeDisabled,
                   file_open := false }) ∧
    (∀ st : TMState,
       st.trim_enabled = true → st.capture_mode.write = true →
       (rangeAt (modifyTotal st.trim_ranges st.trim_current_range)
           st.trim_current_range).total = 0 →
       st.trim_current_range + 1 <
           (modifyTotal st.trim_ranges st.trim_current_range).length →
       (rangeAt (modifyTotal st.trim_ranges st.trim_current_range)
           (st.trim_current_range + 1)).first = st.current_frame + 1 →
       EndFrame false st =
         { st with trim_ranges := modifyTotal st.trim_ranges st.trim_current_range,
                   trim_current_range := st.trim_current_range + 1,
                   current_frame := st.current_frame + 1,
                   trim_enabled := false, capture_mode := kModeDisabled,
                   file_open := false }) := by
  refine ⟨?_, ?_, ?_⟩
  · intro fileOk st h1 h2 h3 h4
    simp [EndFrame, h1, h2, h3, h4]
  · intro st h1 h2 h3 h4
    simp [EndFrame, h1, h2, h3, h4, ActivateTrimming]
  · intro st h1 h2 h3 h4 h5
    have h4' : ¬(modifyTotal st.trim_ranges st.trim_current_range).length ≤
        st.trim_current_range + 1 := by omega
    simp [EndFrame, h1, h2, h3, if_neg h4', h5, ActivateTrimming]

theorem c5_disable_release_paths_witness :
    EndFrame false (EndFrame true (InitTraceState [⟨1, 1⟩, ⟨3, 1⟩] true)) =
      { EndFrame true (InitTraceState [⟨1, 1⟩, ⟨3, 1⟩] true) with
        current_frame :=
          (EndFrame true (InitTraceState [⟨1, 1⟩, ⟨3, 1⟩] true)).current_frame + 1,
        trim_enabled := false, capture_mode := kModeDisabled, file_open := false } :=
  c5_disable_release_paths.2.1 (EndFrame true (InitTraceState [⟨1, 1⟩, ⟨3, 1⟩] true))
    (by decide) (by decide) (by decide) (by decide)

theorem length_zeroRanges (l : List TrimRange) : (zeroRanges l).length = l.length := by
  simp [zeroRanges]

theorem zeroRanges_append (A B : List TrimRange) :
    zeroRanges (A ++ B) = zeroRanges A ++ zeroRanges B := by
  simp [zeroRanges]

theorem modifyTotal_append (A : List TrimRange) (x : TrimRange) (B : List TrimRange) :
    modifyTotal (A ++ x :: B) A.length = A ++ { x with total := x.total - 1 } :: B := by
  induction A with
  | nil => rfl
  | cons a A ih => simp [modifyTotal, ih]

theorem rangeAt_append_len (A : List TrimRange) (x : TrimRange) (B : List TrimRange) :
    rangeAt (A ++ x :: B) A.length = x := by
  induction A with
  | nil => rfl
  | cons a A ih => simpa [rangeAt, List.getD] using ih

theorem rangeAt_append_len_succ (A : List TrimRange) (x y : TrimRange) (B : List TrimRange) :
    rangeAt (A ++ x :: y :: B) (A.length + 1) = y := by
  induction A with
  | nil => rfl
  | cons a A ih => simpa [rangeAt, List.getD] using ih

theorem lastEnd_concat (pre : List TrimRange) (cur : TrimRange) :
    lastEnd (pre ++ [cur]) = endOf cur := by
  simp [lastEnd, List.getLast?_concat]

theorem legalFrom_cons {lo : Nat} {r : TrimRange} {rs : List TrimRange} :
    legalFrom lo (r :: rs) = true ↔
      (lo ≤ r.first ∧ 0 < r.total ∧ legalFrom (endOf r) rs = true) := by
  simp [legalFrom, and_assoc]

theorem legalFrom_mem : ∀ {l : List TrimRange} {lo : Nat}, legalFrom lo l = true →
    ∀ r ∈ l, lo ≤ r.first ∧ 0 < r.total := by
  intro l
  induction l with
  | nil => simp
  | cons a tl ih =>
    intro lo h r hr
    obtain ⟨h1, h2, h3⟩ := legalFrom_cons.1 h
    rcases List.mem_cons.1 hr with rfl | hr
    · exact ⟨h1, h2⟩
    · have hm := ih h3 r hr
      have ha : a.first ≤ endOf a := Nat.le_add_right _ _
      exact ⟨by omega, hm.2⟩

theorem legalFrom_decomp : ∀ {A : List TrimRange} {lo : Nat} {x : TrimRange}
    {B : List TrimRange}, legalFrom lo (A ++ x :: B) = true →
    (∀ a ∈ A, endOf a ≤ x.first) ∧ 0 < x.total ∧ (∀ b ∈ B, endOf x ≤ b.first) := by
  intro A
  induction A with
  | nil =>
    intro lo x B h
    obtain ⟨h1, h2, h3⟩ := legalFrom_cons.1 h
    exact ⟨by simp, h2, fun b hb => (legalFrom_mem h3 b hb).1⟩
  | cons a A ih =>
    intro lo x B h
    rw [List.cons_append, legalFrom_cons] at h
    obtain ⟨h1, h2, h3⟩ := h
    obtain ⟨ha, hx, hb⟩ := ih h3
    refine ⟨?_, hx, hb⟩
    intro p hp
    rcases List.mem_cons.1 hp with rfl | hp
    · exact (legalFrom_mem h3 x (by simp)).1
    · exact ha p hp

theorem legalFrom_lastEnd : ∀ {l : List TrimRange} {lo : Nat}, legalFrom lo l = true →
    ∀ r ∈ l, endOf r ≤ lastEnd l := by
  intro l
  induction l with
  | nil => simp
  | cons a tl ih =>
    intro lo h r hr
    obtain ⟨h1, h2, h3⟩ := legalFrom_cons.1 h
    cases tl with
    | nil =>
      rcases List.mem_cons.1 hr with rfl | hr
      · simp [lastEnd, List.getLast?]
      · simp at hr
    | cons b tl2 =>
      have hle : lastEnd (a :: b :: tl2) = lastEnd (b :: tl2) := by
        simp [lastEnd, List.getLast?_cons_cons]
      rw [hle]
      rcases List.mem_cons.1 hr with rfl | hr
      · have hb1 : endOf r ≤ b.first := (legalFrom_mem h3 b (by simp)).1
        have hb2 : endOf b ≤ lastEnd (b :: tl2) := ih h3 b (by simp)
        have hb3 : b.first ≤ endOf b := Nat.le_add_right _ _
        omega
      · exact ih h3 r hr

/-- The state the manager holds while frame `f` lies inside the range
`cur` (decomposition `ranges = pre ++ cur :: post`, earlier ranges' stored
totals already decremented to zero, the active range's stored total being
what remains including the current frame). -/
def activeState (ranges pre : List TrimRange) (cur : TrimRange) (post : List TrimRange)
    (f : Nat) : TMState :=
  { trim_enabled := true,
    trim_ranges := zeroRanges pre ++ { cur with total := endOf cur - f } :: post,
    trim_current_range := pre.length,
    current_frame := f,
    capture_mode := ⟨true, trackNeeded ranges⟩,
    file_open := true,
    has_state_tracker := trackNeeded ranges,
    has_compressor := true }

/-- The state the manager holds while frame `f` lies before the not yet
started range `cur`. -/
def waitingState (pre : List TrimRange) (cur : TrimRange) (post : List TrimRange)
    (f : Nat) : TMState :=
  { trim_enabled := true,
    trim_ranges := zeroRanges pre ++ cur :: post,
    trim_current_range := pre.length,
    current_frame := f,
    capture_mode := kModeTrack,
    file_open := false,
    has_state_tracker := true,
    has_compressor := true }

/-- The frozen state after the last range completes. -/
def disabledState (ranges : List TrimRange) : TMState :=
  { trim_enabled := false,
    trim_ranges := zeroRanges ranges,
    trim_current_range := ranges.length,
    current_frame := lastEnd ranges,
    capture_mode := kModeDisabled,
    file_open := false,
    has_state_tracker := false,
    has_compressor := false }

/-- The reachable-state invariant of the trim state machine during frame
`f` (for a non-empty legal configuration `ranges` with every attempted
capture-file creation succeeding). -/
def TrimInv (ranges : List TrimRange) (f : Nat) (st : TMState) : Prop :=
  (∃ pre cur post, ranges = pre ++ cur :: post ∧ cur.first ≤ f ∧ f < endOf cur ∧
     st = activeState ranges pre cur post f) ∨
  (∃ pre cur post, ranges = pre ++ cur :: post ∧ f < cur.first ∧
     (∀ p ∈ pre, endOf p ≤ f) ∧ trackNeeded ranges = true ∧
     st = waitingState pre cur post f) ∨
  (lastEnd ranges ≤ f ∧ st = disabledState ranges)

theorem trimInv_init (ranges : List TrimRange) (h : legalFrom 1 ranges = true)
    (hne : ranges ≠ []) : TrimInv ranges 1 (InitTraceState ranges true) := by
  cases ranges with
  | nil => exact absurd rfl hne
  | cons r rest =>
    obtain ⟨h1, h2, h3⟩ := legalFrom_cons.1 h
    by_cases hr1 : r.first = 1
    · left
      refine ⟨[], r, rest, rfl, by omega, ?_, ?_⟩
      · simp [endOf]; omega
      · have htot : endOf r - 1 = r.total := by simp [endOf]; omega
        have hcur : ({ r with total := endOf r - 1 } : TrimRange) = r := by
          rw [htot]
        cases rest with
        | nil =>
          have hcur2 : ({ first := 1, total := endOf r - 1 } : TrimRange) = r := hr1 ▸ hcur
          simp [InitTraceState, activeState, trackNeeded, hr1, zeroRanges,
            kModeWrite, kModeWriteAndTrack, hcur2]
        | cons q rest2 =>
          have hcur2 : ({ first := 1, total := endOf r - 1 } : TrimRange) = r := hr1 ▸ hcur
          simp [InitTraceState, activeState, trackNeeded, hr1, zeroRanges,
            kModeWrite, kModeWriteAndTrack, hcur2]
    · right; left
      refine ⟨[], r, rest, rfl, by omega, by simp, ?_, ?_⟩
      · simp [trackNeeded, hr1]
      · simp [InitTraceState, waitingState, hr1, zeroRanges, kModeTrack]

theorem trackNeeded_of_len {l : List TrimRange} (h : 1 < l.length) :
    trackNeeded l = true := by
  simp [trackNeeded, h]

theorem zeroRanges_cons (r : TrimRange) (l : List TrimRange) :
    zeroRanges (r :: l) = { r with total := 0 } :: zeroRanges l := rfl

theorem zeroRanges_nil : zeroRanges [] = [] := rfl

theorem trimInv_step_active (ranges pre : List TrimRange) (cur : TrimRange)
    (post : List TrimRange) (f : Nat) (hl : legalFrom 1 ranges = true)
    (hdec : ranges = pre ++ cur :: post) (h1 : cur.first ≤ f) (h2 : f < endOf cur) :
    TrimInv ranges (f + 1) (EndFrame true (activeState ranges pre cur post f)) := by
  obtain ⟨hpre_le, hcur_pos, hpost_ge⟩ := legalFrom_decomp (hdec ▸ hl)
  have hMod : modifyTotal (zeroRanges pre ++ { cur with total := endOf cur - f } :: post)
      pre.length = zeroRanges pre ++ { cur with total := endOf cur - f - 1 } :: post := by
    simpa [length_zeroRanges]
      using modifyTotal_append (zeroRanges pre) { cur with total := endOf cur - f } post
  have hGet : rangeAt (zeroRanges pre ++ { cur with total := endOf cur - f - 1 } :: post)
      pre.length = { cur with total := endOf cur - f - 1 } := by
    simpa [length_zeroRanges]
      using rangeAt_append_len (zeroRanges pre) { cur with total := endOf cur - f - 1 } post
  by_cases hend : endOf cur ≤ f + 1
  · have hend' : endOf cur = f + 1 := by omega
    have hz : endOf cur - f - 1 = 0 := by omega
    cases post with
    | nil =>
      right; right
      refine ⟨by rw [hdec, lastEnd_concat]; omega, ?_⟩
      simp only [EndFrame, activeState]
      rw [hMod, hGet, hdec]
      simp [hz, disabledState, lastEnd_concat, hend', zeroRanges_append,
        zeroRanges_cons, zeroRanges_nil, length_zeroRanges]
    | cons q post' =>
      have hlen : ¬(zeroRanges pre ++
          { cur with total := endOf cur - f - 1 } :: q :: post').length ≤ pre.length + 1 := by
        simp [length_zeroRanges]
      have hGet6 : rangeAt (zeroRanges pre ++
          { cur with total := endOf cur - f - 1 } :: q :: post') (pre.length + 1) = q := by
        simpa [length_zeroRanges]
          using rangeAt_append_len_succ (zeroRanges pre)
            { cur with total := endOf cur - f - 1 } q post'
      have hq_ge : endOf cur ≤ q.first := hpost_ge q (by simp)
      by_cases hq : q.first = f + 1
      · left
        have hqpos : 0 < q.total := (legalFrom_mem hl q (by rw [hdec]; simp)).2
        have hqt : endOf q - (f + 1) = q.total := by simp only [endOf]; omega
        have hqeta : ({ q with total := endOf q - (f + 1) } : TrimRange) = q := by
          rw [hqt]
        refine ⟨pre ++ [cur], q, post', by rw [hdec]; simp, by omega, ?_, ?_⟩
        · simp only [endOf]; omega
        · have hqeta2 : ({ first := f + 1, total := endOf q - (f + 1) } : TrimRange) = q :=
            hq ▸ hqeta
          simp only [EndFrame, activeState]
          rw [hMod, hGet, hGet6]
          simp [hz, hlen, hq, ActivateTrimming, hqeta, hqeta2, zeroRanges_append,
            zeroRanges_cons, zeroRanges_nil, length_zeroRanges]
      · right; left
        have hfq : f + 1 < q.first := by omega
        have htrk : trackNeeded ranges = true := by
          refine trackNeeded_of_len ?_
          rw [hdec]
          simp
          omega
        refine ⟨pre ++ [cur], q, post', by rw [hdec]; simp, hfq, ?_, htrk, ?_⟩
        · intro p hp
          rcases List.mem_append.1 hp with hp | hp
          · have := hpre_le p hp
            omega
          · rcases List.mem_singleton.1 hp with rfl
            omega
        · simp only [EndFrame, activeState]
          rw [hMod, hGet, hGet6]
          simp [hz, hlen, hq, htrk, waitingState, kModeTrack,
            zeroRanges_append, zeroRanges_cons, zeroRanges_nil, length_zeroRanges]
  · have hnz : ¬(endOf cur - f - 1 = 0) := by omega
    left
    refine ⟨pre, cur, post, hdec, by omega, by omega, ?_⟩
    simp only [EndFrame, activeState]
    rw [hMod, hGet]
    simp [hnz, Nat.sub_sub]
    intro hcontr
    omega

theorem trimInv_step_waiting (ranges pre : List TrimRange) (cur : TrimRange)
    (post : List TrimRange) (f : Nat) (hl : legalFrom 1 ranges = true)
    (hdec : ranges = pre ++ cur :: post) (h1 : f < cur.first)
    (hpre : ∀ p ∈ pre, endOf p ≤ f) (htrk : trackNeeded ranges = true) :
    TrimInv ranges (f + 1) (EndFrame true (waitingState pre cur post f)) := by
  have hGet : rangeAt (zeroRanges pre ++ cur :: post) pre.length = cur := by
    simpa [length_zeroRanges] using rangeAt_append_len (zeroRanges pre) cur post
  by_cases hq : cur.first = f + 1
  · left
    have hcpos : 0 < cur.total := (legalFrom_mem hl cur (by rw [hdec]; simp)).2
    have hct : endOf cur - (f + 1) = cur.total := by simp only [endOf]; omega
    have hceta : ({ cur with total := endOf cur - (f + 1) } : TrimRange) = cur := by
      rw [hct]
    have hceta2 : ({ first := f + 1, total := endOf cur - (f + 1) } : TrimRange) = cur :=
      hq ▸ hceta
    refine ⟨pre, cur, post, hdec, by omega, by simp only [endOf]; omega, ?_⟩
    simp only [EndFrame, waitingState]
    rw [hGet]
    simp [hq, ActivateTrimming, activeState, kModeTrack, htrk, hceta, hceta2]
  · right; left
    refine ⟨pre, cur, post, hdec, by omega, fun p hp => by have := hpre p hp; omega,
      htrk, ?_⟩
    simp only [EndFrame, waitingState]
    rw [hGet]
    simp [hq, kModeTrack]

theorem trimInv_step (ranges : List TrimRange) (f : Nat) (st : TMState)
    (hl : legalFrom 1 ranges = true) (hinv : TrimInv ranges f st) :
    TrimInv ranges (f + 1) (EndFrame true st) := by
  rcases hinv with ⟨pre, cur, post, hdec, h1, h2, rfl⟩ |
    ⟨pre, cur, post, hdec, h1, hpre, htrk, rfl⟩ | ⟨hle, rfl⟩
  · exact trimInv_step_active ranges pre cur post f hl hdec h1 h2
  · exact trimInv_step_waiting ranges pre cur post f hl hdec h1 hpre htrk
  · right; right
    refine ⟨by omega, ?_⟩
    simp [EndFrame, disabledState]

theorem trimInv_run (ranges : List TrimRange) (hl : legalFrom 1 ranges = true)
    (hne : ranges ≠ []) (n : Nat) :
    TrimInv ranges (n + 1) (RunFrames (fun _ => true) (InitTraceState ranges true) n) := by
  induction n with
  | zero => exact trimInv_init ranges hl hne
  | succ n ih => exact trimInv_step ranges (n + 1) _ hl ih

theorem trimInv_write_iff (ranges : List TrimRange) (f : Nat) (st : TMState)
    (hl : legalFrom 1 ranges = true) (hinv : TrimInv ranges f st) :
    (st.capture_mode.write = true ↔ inRangeB ranges f = true) := by
  rcases hinv with ⟨pre, cur, post, hdec, h1, h2, rfl⟩ |
    ⟨pre, cur, post, hdec, h1, hpre, htrk, rfl⟩ | ⟨hle, rfl⟩
  · simp only [activeState, true_iff]
    rw [hdec]
    refine (List.any_eq_true).2 ⟨cur, by simp, ?_⟩
    simp only [Bool.and_eq_true, decide_eq_true_eq]
    omega
  · simp only [waitingState, kModeTrack, Bool.false_eq_true, false_iff]
    obtain ⟨hpre_le, hcur_pos, hpost_ge⟩ := legalFrom_decomp (hdec ▸ hl)
    intro hcontra
    rcases List.any_eq_true.1 hcontra with ⟨r, hr, hrf⟩
    simp only [Bool.and_eq_true, decide_eq_true_eq] at hrf
    rw [hdec] at hr
    rcases List.mem_append.1 hr with hr | hr
    · have := hpre r hr
      omega
    · rcases List.mem_cons.1 hr with rfl | hr
      · omega
      · have hge := hpost_ge r hr
        have : cur.first ≤ endOf cur := Nat.le_add_right _ _
        omega
  · simp only [disabledState, kModeDisabled, Bool.false_eq_true, false_iff]
    intro hcontra
    rcases List.any_eq_true.1 hcontra with ⟨r, hr, hrf⟩
    simp only [Bool.and_eq_true, decide_eq_true_eq] at hrf
    have := legalFrom_lastEnd hl r hr
    omega

theorem trimInv_mode_disabled (ranges : List TrimRange) (f : Nat) (st : TMState)
    (hl : legalFrom 1 ranges = true) (hinv : TrimInv ranges f st)
    (hle : lastEnd ranges ≤ f) : st.capture_mode = kModeDisabled := by
  rcases hinv with ⟨pre, cur, post, hdec, h1, h2, rfl⟩ |
    ⟨pre, cur, post, hdec, h1, hpre, htrk, rfl⟩ | ⟨_, rfl⟩
  · have := legalFrom_lastEnd hl cur (by rw [hdec]; simp)
    omega
  · have hcc := legalFrom_lastEnd hl cur (by rw [hdec]; simp)
    have : cur.first ≤ endOf cur := Nat.le_add_right _ _
    omega
  · rfl

/-- C2: for a legal trim configuration, the set of frames during which the
`Write` bit is set is exactly the union of the configured ranges.  The
initial mode is `Write` with no trim ranges, `Write` (one range) or
`Write|Track` (more than one) when the first range starts at frame 1, and
`Track` when it starts later; each `EndFrame` under trim increments the
frame counter first; the state after `n` frame ends (that is, during frame
`n + 1`) has `Write` set iff frame `n + 1` lies in a configured range, and
once the last range completes the mode is `Disabled`. -/
theorem c2_mode_transitions :
    ((InitTraceState [] true).capture_mode = kModeWrite) ∧
    (∀ (r : TrimRange) (rest : List TrimRange), r.first = 1 →
       (InitTraceState (r :: rest) true).capture_mode =
         (if rest.isEmpty then kModeWrite else kModeWriteAndTrack)) ∧
    (∀ (r : TrimRange) (rest : List TrimRange), r.first ≠ 1 →
       (InitTraceState (r :: rest) true).capture_mode = kModeTrack) ∧
    (∀ (fileOk : Bool) (st : TMState), st.trim_enabled = true →
       (EndFrame fileOk st).current_frame = st.current_frame + 1) ∧
    (∀ ranges : List TrimRange, legalRanges ranges = true → ranges ≠ [] →
       ∀ n : Nat,
         ((RunFrames (fun _ => true) (InitTraceState ranges true) n).capture_mode.write = true
           ↔ inRangeB ranges (n + 1) = true)) ∧
    (∀ ranges : List TrimRange, legalRanges ranges = true → ranges ≠ [] →
       ∀ n : Nat, lastEnd ranges ≤ n + 1 →
         (RunFrames (fun _ => true) (InitTraceState ranges true) n).capture_mode =
           kModeDisabled) := by
  refine ⟨rfl, ?_, ?_, ?_, ?_, ?_⟩
  · intro r rest h1
    cases rest with
    | nil => simp [InitTraceState, h1, kModeWrite]
    | cons q rest2 => simp [InitTraceState, h1, kModeWriteAndTrack]
  · intro r rest h1
    simp [InitTraceState, h1, kModeTrack]
  · intro fileOk st h
    cases fileOk <;>
      · simp only [EndFrame, h, if_true]
        split_ifs <;> simp [ActivateTrimming]
  · intro ranges hleg hne n
    have hl : legalFrom 1 ranges = true := by
      simp only [legalRanges, Bool.and_eq_true] at hleg
      exact hleg.1
    exact trimInv_write_iff ranges (n + 1) _ hl (trimInv_run ranges hl hne n)
  · intro ranges hleg hne n hle
    have hl : legalFrom 1 ranges = true := by
      simp only [legalRanges, Bool.and_eq_true] at hleg
      exact hleg.1
    exact trimInv_mode_disabled ranges (n + 1) _ hl (trimInv_run ranges hl hne n) hle

theorem c2_mode_transitions_witness :
    (RunFrames (fun _ => true) (InitTraceState [⟨2, 2⟩] true) 2).capture_mode.write = true ↔
      inRangeB [⟨2, 2⟩] 3 = true :=
  c2_mode_transitions.2.2.2.2.1 [⟨2, 2⟩] (by decide) (by decide) 2
